import Mathlib

/-!
Verification of the postprocessor pipeline in `src/postprocessors.rs` of the
`obsidian-export` fork.  The four stages (`softbreaks_to_hardbreaks`,
`destination_from_frontmatter`, `filter_by_tags`, `remove_specified_tags`)
are shallowly embedded below.  Paths are modelled as lists of components
(relative paths without `.` segments; a `..` segment is represented by the
literal component string ".."), matching `std::path::Path` semantics on such
paths.  A stage that can panic or loop forever is modelled as an
`Option`-returning function, `none` meaning "does not return normally".
Filesystem copies are modelled as the list of (source, target) path pairs the
stage attempts; the outcome of an actual copy is outside the model.
-/

namespace Obsidian

/-- The two-state outcome of a postprocessor stage (`PostprocessorResult` in
the source). -/
inductive PostprocessorResult where
  | Continue
  | StopAndSkipNote
deriving DecidableEq

/-- `serde_yaml::Value`: the YAML-like frontmatter value tree.  Numbers are
modelled as `Int`; mapping keys are modelled as strings (every key the
program reads is a string). -/
inductive Value where
  | null
  | bool (b : Bool)
  | num (n : Int)
  | str (s : String)
  | seq (l : List Value)
  | mapping (l : List (String × Value))

/-- `serde_yaml::Value::as_str`: `Some` exactly on strings. -/
def Value.as_str : Value → Option String
  | Value.str s => some s
  | _ => none

/-- `v == Value::String(s)` for a `serde_yaml` value `v`: `serde_yaml`'s
`PartialEq` makes a `String` value equal only to a `String` value with the
same content. -/
def valueEqStr : Value → String → Bool
  | Value.str t, s => t == s
  | _, _ => false

/-- `serde_yaml::Mapping::get` with a string key: the value of the entry
whose key equals `k`, if any (keys in a mapping are unique). -/
def frontGet : List (String × Value) → String → Option Value
  | [], _ => none
  | p :: rest, k => if p.1 == k then some p.2 else frontGet rest k

/-- `serde_yaml::Mapping::insert` with a string key: update the value in
place when the key is present, otherwise append the new entry. -/
def frontInsert : List (String × Value) → String → Value → List (String × Value)
  | [], k, v => [(k, v)]
  | p :: rest, k, v => if p.1 == k then (k, v) :: rest else p :: frontInsert rest k v

/-- Markdown events (`pulldown_cmark::Event`).  Only the variants the stages
inspect are distinguished; everything else passes through as `other`.
`startImage d t` stands for `Event::Start(Tag::Image { dest_url: d, title: t, .. })`. -/
inductive MdEvent where
  | softBreak
  | hardBreak
  | text (s : String)
  | startImage (dest_url : String) (title : String)
  | endImage
  | other (kind : String)
deriving DecidableEq

/-- `event == &Event::SoftBreak`. -/
def isSoftBreak : MdEvent → Bool
  | MdEvent.softBreak => true
  | _ => false

/-- The per-note execution context (`Context` in the source): frontmatter
mapping, source path and currently-computed destination path. -/
structure Context where
  frontmatter : List (String × Value)
  current_file : List String
  destination : List String

/-- `Path::file_name` on a component list: the last component, unless it is
`..` (or the path is empty), in which case there is none. -/
def fileName (p : List String) : Option String :=
  match p.getLast? with
  | some s => if s = ".." then none else some s
  | none => none

/-- The index of the last `.` in a list of characters, if any. -/
def lastDotIdx : List Char → Option Nat
  | [] => none
  | c :: rest =>
    match lastDotIdx rest with
    | some i => some (i + 1)
    | none => if c = '.' then some 0 else none

/-- `std` file-stem rule on a file name: the portion before the last `.`,
except that a name with no `.`, or whose only `.` is leading, is its own
stem. -/
def stemOfName (s : String) : String :=
  match lastDotIdx s.data with
  | none => s
  | some 0 => s
  | some i => String.mk (s.data.take i)

/-- `Path::file_stem` on a component list. -/
def fileStem (p : List String) : Option String :=
  (fileName p).map stemOfName

/-- `path.parent().unwrap_or(path)`: drop the final component when there is
a parent, keep the path unchanged at the root.  On the component-list model
both cases are `dropLast` (the root is `[]` and `dropLast [] = []`). -/
def parentOr (p : List String) : List String :=
  p.dropLast

/-- `Path::parent`: `none` at the root. -/
def parent (p : List String) : Option (List String) :=
  match p with
  | [] => none
  | _ => some p.dropLast

/-- `s.starts_with(pre)` on strings. -/
def strStartsWith (s pre : String) : Bool :=
  pre.data.isPrefixOf s.data

/-- Split a character list at `/`, accumulating the current component in
reverse. -/
def splitSlashGo : List Char → List Char → List String
  | [], acc => [String.mk acc.reverse]
  | c :: rest, acc =>
    if c = '/' then String.mk acc.reverse :: splitSlashGo rest [] else splitSlashGo rest (c :: acc)

/-- Parse a path string into its list of components (empty components, as
produced by doubled or leading separators, are dropped, as
`Path::components` does). -/
def parsePath (s : String) : List String :=
  (splitSlashGo s.data []).filter (fun c => c != "")

/-- `base.join(Path::new(s))`: append the parsed components of `s` unless
`s` is absolute, in which case it replaces `base`. -/
def pathJoin (base : List String) (s : String) : List String :=
  if strStartsWith s "/" then parsePath s else base ++ parsePath s

/-- One pass of `str::replace`'s scan with fuel: at each position, if the
(nonempty) pattern is a prefix, emit the replacement and skip the match,
else keep the character.  Fuel at least the length of the scanned list makes
the zero-fuel branch unreachable. -/
def replaceGo (pat rep : List Char) : Nat → List Char → List Char
  | _, [] => []
  | 0, s => s
  | fuel + 1, c :: rest =>
    if pat.isPrefixOf (c :: rest) then rep ++ replaceGo pat rep fuel ((c :: rest).drop pat.length)
    else c :: replaceGo pat rep fuel rest

/-- Rust `str::replace s pat rep`: replace every non-overlapping occurrence
of `pat` in `s`, scanning left to right.  An empty pattern matches at every
boundary, as in Rust. -/
def rustReplace (s pat rep : String) : String :=
  match pat.data with
  | [] => String.mk (rep.data ++ s.data.flatMap (fun c => c :: rep.data))
  | _ => String.mk (replaceGo pat.data rep.data s.data.length s.data)

/-- Modelled from the spec: the external `slug::slugify` function, missing
from `src/` (it comes from the `slug` crate).  Per the spec it lowercases
the title and collapses non-alphanumeric runs to separators; the crate's
unicode transliteration is outside the model.  `collapseDash` collapses runs
of `-` and trims trailing ones. -/
def collapseDash : List Char → List Char
  | [] => []
  | c :: rest =>
    if c = '-' then
      match collapseDash rest with
      | [] => []
      | '-' :: r => '-' :: r
      | r => '-' :: r
    else c :: collapseDash rest

/-- Modelled from the spec: drop the single leading separator `collapseDash`
may leave. -/
def trimLeadDash : List Char → List Char
  | '-' :: r => r
  | r => r

/-- Modelled from the spec: `slug::slugify` — "lowercase, non-alphanumeric
runs collapsed to separators". -/
def slugify (s : String) : String :=
  String.mk (trimLeadDash (collapseDash (s.data.map (fun c => if c.isAlphanum then c.toLower else '-'))))

/-- The shared-root walk of `destination_from_frontmatter`
(`while from.file_name() == to.file_name() { .. parent().unwrap_or(..) .. }`),
run with explicit fuel; `none` means the fuel ran out. -/
def walkFuel : Nat → List String → List String → Option (List String × List String)
  | 0, _, _ => none
  | n + 1, f, t =>
    if fileName f = fileName t then walkFuel n (parentOr f) (parentOr t)
    else some (f, t)

/-- The walk diverges from `(f, t)`: no amount of fuel makes it finish. -/
def loopsForever (f t : List String) : Prop :=
  ∀ n, walkFuel n f t = none

/-- The shared-root walk with enough fuel for every terminating run: each
step that makes progress removes at least one component from `f ++ t`. -/
def sharedRootWalk (f t : List String) : Option (List String × List String) :=
  walkFuel (f.length + t.length + 1) f t

/-- `frontmatter.get("date").and_then(as_str).unwrap_or("1970-01-01")`. -/
def dateOf (ctx : Context) : String :=
  ((frontGet ctx.frontmatter "date").bind Value.as_str).getD "1970-01-01"

/-- `frontmatter.get("title").and_then(as_str).unwrap_or(<file stem>)`. -/
def titleOf (ctx : Context) (stem : String) : String :=
  ((frontGet ctx.frontmatter "title").bind Value.as_str).getD stem

/-- `export_path.replace(":date", &date).replace(":title", &slug)`. -/
def exportTarget (ctx : Context) (stem ep : String) : String :=
  rustReplace (rustReplace ep ":date" (dateOf ctx)) ":title" (slugify (titleOf ctx stem))

/-- The relative-image test of the asset loop: a `Start(Image)` event whose
URL starts neither with `https://` nor with `/` yields its URL. -/
def relImage : MdEvent → Option String
  | MdEvent.startImage d _ =>
    if strStartsWith d "https://" || strStartsWith d "/" then none else some d
  | _ => none

/-- The asset loop of `destination_from_frontmatter`: for each
locally-relative image, record the attempted copy from
`current_file.parent().join(url)` to `destination.parent().join(url)`;
`none` when one of the `parent().expect(..)` calls panics. -/
def collectCopies (cf nd : List String) : List MdEvent → Option (List (List String × List String))
  | [] => some []
  | e :: rest =>
    match relImage e with
    | some d =>
      match parent cf, parent nd with
      | some pc, some pn => (collectCopies cf nd rest).map (fun l => (pathJoin pc d, pathJoin pn d) :: l)
      | _, _ => none
    | none => collectCopies cf nd rest

/-- The output of `destination_from_frontmatter`: the new context, the event
stream, the outcome, and the attempted asset copies. -/
abbrev DestOut := Context × List MdEvent × PostprocessorResult × List (List String × List String)

/-- `destination_from_frontmatter`.  The `file_stem().expect(..)` of line 34
runs eagerly (Rust's `unwrap_or` evaluates its argument unconditionally), so
a `current_file` with no stem panics (`none`) whatever the frontmatter says.
A diverging shared-root walk is also `none`. -/
def destination_from_frontmatter (ctx : Context) (events : List MdEvent) : Option DestOut :=
  match fileStem ctx.current_file with
  | none => none
  | some stem =>
    match frontGet ctx.frontmatter "export_to" with
    | some (Value.str ep) =>
      match sharedRootWalk ctx.current_file ctx.destination with
      | none => none
      | some (_, t) =>
        match collectCopies ctx.current_file (pathJoin t (exportTarget ctx stem ep)) events with
        | none => none
        | some copies =>
          some (Context.mk ctx.frontmatter ctx.current_file (pathJoin t (exportTarget ctx stem ep)),
                events, PostprocessorResult.Continue, copies)
    | _ => some (ctx, events, PostprocessorResult.Continue, [])

/-- `softbreaks_to_hardbreaks`: rewrite every `SoftBreak` to `HardBreak` in
place, touch nothing else, return `Continue`. -/
def softbreaks_to_hardbreaks (ctx : Context) (events : List MdEvent) :
    Context × List MdEvent × PostprocessorResult :=
  (ctx, events.map (fun e => if isSoftBreak e then MdEvent.hardBreak else e),
   PostprocessorResult.Continue)

/-- `list.iter().any(|tag| tags.contains(&Value::String(tag.to_string())))`:
some string of `l` occurs (as a string value) among `tags`. -/
def tagsMatch (tags : List Value) (l : List String) : Bool :=
  l.any (fun tag => tags.any (fun v => valueEqStr v tag))

/-- `filter_by_tags_`: the verdict kernel of the tag filter.  `skip` is
`tagsMatch tags skip_tags`; `include` is
`only_tags.isEmpty || tagsMatch tags only_tags`; the verdict is
`StopAndSkipNote` iff `skip || !include`. -/
def filter_by_tags_ (tags : List Value) (skip_tags only_tags : List String) : PostprocessorResult :=
  if tagsMatch tags skip_tags || !(only_tags.isEmpty || tagsMatch tags only_tags)
  then PostprocessorResult.StopAndSkipNote
  else PostprocessorResult.Continue

/-- The `filter_by_tags` stage (the closure returned by the Rust
constructor); it mutates nothing, so only the outcome is returned. -/
def filter_by_tags (skip_tags only_tags : List String) (ctx : Context)
    (_events : List MdEvent) : PostprocessorResult :=
  match frontGet ctx.frontmatter "tags" with
  | none => filter_by_tags_ [] skip_tags only_tags
  | some (Value.seq tags) => filter_by_tags_ tags skip_tags only_tags
  | some _ => PostprocessorResult.Continue

/-- The tag-collection loop of `remove_specified_tags`: each element is
coerced with `as_str().unwrap_or("")` (written `(as_str t).getD ""`) and
kept unless the coerced string is in the removal list (`Vec::contains` is
`∈` on a string list). -/
def removeTags (to_remove : List String) (tags : List Value) : List String :=
  tags.filterMap (fun t =>
    if (Value.as_str t).getD "" ∈ to_remove then none else some ((Value.as_str t).getD ""))

/-- The `result_tags` value of `remove_specified_tags`: the filtered tag
list when the field holds a sequence, empty otherwise (the Rust vector
starts empty and is only filled in the `Sequence` arm). -/
def removeTagsOfField (to_remove : List String) : Option Value → List String
  | some (Value.seq tags) => removeTags to_remove tags
  | _ => []

/-- The `remove_specified_tags` stage: build `result_tags` and
unconditionally insert it back into the frontmatter as a sequence of
strings; always `Continue`. -/
def remove_specified_tags (to_remove : List String) (ctx : Context) (events : List MdEvent) :
    Context × List MdEvent × PostprocessorResult :=
  (Context.mk
    (frontInsert ctx.frontmatter "tags"
      (Value.seq ((removeTagsOfField to_remove (frontGet ctx.frontmatter "tags")).map Value.str)))
    ctx.current_file ctx.destination,
   events, PostprocessorResult.Continue)

/-- The veto condition of the Tag Filter, in the spec's words: some note tag
appears in the deny list, or the allow list is non-empty and no note tag
appears in it. -/
def tagFilterVeto (tags : List Value) (skip_tags only_tags : List String) : Prop :=
  (∃ v ∈ tags, ∃ s ∈ skip_tags, v = Value.str s) ∨
    (only_tags ≠ [] ∧ ¬ ∃ v ∈ tags, ∃ s ∈ only_tags, v = Value.str s)

/-- A note whose frontmatter tags are `[skip, publish]` (concrete input for
the tag-filter verdict). -/
def ctxC1w : Context :=
  Context.mk [("tags", Value.seq [Value.str "skip", Value.str "publish"])]
    ["note.md"] ["out", "note.md"]

/-- A note whose `tags` field is a string, not a sequence. -/
def ctxC2 : Context :=
  Context.mk [("tags", Value.str "foo")] ["note.md"] ["out", "note.md"]

/-- A plain note context for the line-break stage. -/
def ctxC3w : Context :=
  Context.mk [] ["note.md"] ["out", "note.md"]

/-- The destination-resolver example of the spec: `current_file = a/b/note.md`,
default destination `out/b/note.md`, frontmatter with title, date and
`export_to` template. -/
def ctxC5 : Context :=
  Context.mk
    [("title", Value.str "My Note"), ("date", Value.str "2024-01-02"),
     ("export_to", Value.str ":date-:title.md")]
    ["a", "b", "note.md"] ["out", "b", "note.md"]

/-- A context whose `current_file` is the empty path, so it has no file
stem. -/
def ctxC6 : Context :=
  Context.mk [] [] ["out"]

/-- A well-formed context without `export_to`. -/
def ctxC6w : Context :=
  Context.mk [] ["note.md"] ["out", "note.md"]

/-- A context with a stem-less `current_file` but a present `title`: the
`file_stem().expect(..)` argument of `unwrap_or` is still evaluated. -/
def ctxC9 : Context :=
  Context.mk [("title", Value.str "T")] [] ["out", "n.md"]

/-- A well-formed context for the totality statement. -/
def ctxC9w : Context :=
  Context.mk [] ["note.md"] ["out", "note.md"]

/-- A note whose `tags` sequence holds a non-string element. -/
def ctxC8 : Context :=
  Context.mk [("tags", Value.seq [Value.num 1])] ["n.md"] ["o", "n.md"]

/-- A note whose `tags` sequence is a string sequence. -/
def ctxC8w : Context :=
  Context.mk [("tags", Value.seq [Value.str "a", Value.str "b"])] ["n.md"] ["o", "n.md"]

/-- A note whose `tags` sequence mixes a number and a string. -/
def ctxC10w : Context :=
  Context.mk [("tags", Value.seq [Value.num 1, Value.str "a"])] ["n.md"] ["o", "n.md"]

/-! ## Helper lemmas -/

/-- `v == Value::String(s)` holds exactly when `v` is the string value `s`. -/
theorem valueEqStr_eq_true_iff (v : Value) (s : String) :
    valueEqStr v s = true ↔ v = Value.str s := by
  cases v <;> simp [valueEqStr]

/-- Looking up a key just inserted returns the inserted value. -/
theorem frontGet_frontInsert (fm : List (String × Value)) (k : String) (v : Value) :
    frontGet (frontInsert fm k v) k = some v := by
  induction fm with
  | nil => simp [frontInsert, frontGet]
  | cons p rest ih =>
    by_cases hp : p.1 == k
    · simp [frontInsert, hp, frontGet]
    · simp [frontInsert, hp, frontGet, ih]

/-- On a sequence of strings the removal loop is a plain filter. -/
theorem removeTags_map_str (to_remove : List String) (ts : List String) :
    removeTags to_remove (ts.map Value.str) = ts.filter (fun s => decide (s ∉ to_remove)) := by
  induction ts with
  | nil => rfl
  | cons s rest ih =>
    by_cases hs : s ∈ to_remove <;>
      simp [removeTags, Value.as_str, hs, List.filter_cons] at * <;> simp [ih]

/-- What `remove_specified_tags` writes back: the (string-coerced, filtered)
`result_tags`, as a sequence of strings. -/
theorem remove_tags_written (to_remove : List String) (ctx : Context) (events : List MdEvent) :
    frontGet ((remove_specified_tags to_remove ctx events).1.frontmatter) "tags" =
      some (Value.seq
        ((removeTagsOfField to_remove (frontGet ctx.frontmatter "tags")).map Value.str)) := by
  unfold remove_specified_tags
  exact frontGet_frontInsert _ _ _

/-- Every string produced by the removal loop avoids the removal list. -/
theorem mem_removeTags_not_mem (to_remove : List String) (tags : List Value) (s : String)
    (h : s ∈ removeTags to_remove tags) : s ∉ to_remove := by
  unfold removeTags at h
  obtain ⟨t, _, hf⟩ := List.mem_filterMap.mp h
  by_cases hc : (Value.as_str t).getD "" ∈ to_remove
  · rw [if_pos hc] at hf
    exact Option.noConfusion hf
  · rw [if_neg hc] at hf
    exact (Option.some.inj hf) ▸ hc

/-! ## Claim theorems -/

/-- C3: `softbreaks_to_hardbreaks` replaces each `SoftBreak` event with
`HardBreak`, leaves every other event unchanged, preserves order and length,
returns `Continue`, and does not mutate the `Context`. -/
theorem softbreaks_spec (ctx : Context) (events : List MdEvent) :
    (softbreaks_to_hardbreaks ctx events).1 = ctx ∧
    (softbreaks_to_hardbreaks ctx events).2.2 = PostprocessorResult.Continue ∧
    (softbreaks_to_hardbreaks ctx events).2.1.length = events.length ∧
    ∀ i : Nat,
      (events[i]? = some MdEvent.softBreak →
        (softbreaks_to_hardbreaks ctx events).2.1[i]? = some MdEvent.hardBreak) ∧
      ∀ e : MdEvent, events[i]? = some e → e ≠ MdEvent.softBreak →
        (softbreaks_to_hardbreaks ctx events).2.1[i]? = some e := by
  refine ⟨rfl, rfl, by simp [softbreaks_to_hardbreaks], ?_⟩
  intro i
  constructor
  · intro h
    simp [softbreaks_to_hardbreaks, List.getElem?_map, h, isSoftBreak]
  · intro e h hne
    have hsb : isSoftBreak e = false := by
      cases e <;> simp [isSoftBreak] at hne ⊢
    simp [softbreaks_to_hardbreaks, List.getElem?_map, h, hsb]

/-- Witness for C3 at a concrete stream: its first event, a `SoftBreak`,
becomes a `HardBreak`. -/
theorem softbreaks_spec_witness :
    (softbreaks_to_hardbreaks ctxC3w [MdEvent.softBreak, MdEvent.text "a"]).2.1[0]? =
      some MdEvent.hardBreak :=
  ((softbreaks_spec ctxC3w [MdEvent.softBreak, MdEvent.text "a"]).2.2.2 0).1 rfl

/-- C4: `softbreaks_to_hardbreaks` is idempotent — applying the stage twice
yields the same output as applying it once. -/
theorem softbreaks_idempotent (ctx : Context) (events : List MdEvent) :
    softbreaks_to_hardbreaks ctx ((softbreaks_to_hardbreaks ctx events).2.1) =
      softbreaks_to_hardbreaks ctx events := by
  simp only [softbreaks_to_hardbreaks, List.map_map]
  refine congrArg (fun l => (ctx, l, PostprocessorResult.Continue)) ?_
  refine List.map_congr_left ?_
  intro e _
  cases e <;> simp [isSoftBreak]

/-- C5: on the spec's example — `current_file = a/b/note.md`, default
destination `out/b/note.md`, frontmatter
`{title: "My Note", date: "2024-01-02", export_to: ":date-:title.md"}` —
the slug is `my-note`, the trailing-segment walk stops at the `a`/`out`
pair, and the resolved destination is `out/2024-01-02-my-note.md`. -/
theorem destination_example :
    slugify "My Note" = "my-note" ∧
    sharedRootWalk ["a", "b", "note.md"] ["out", "b", "note.md"] = some (["a"], ["out"]) ∧
    destination_from_frontmatter ctxC5 [] =
      some (Context.mk ctxC5.frontmatter ctxC5.current_file ["out", "2024-01-02-my-note.md"],
            [], PostprocessorResult.Continue, []) :=
  ⟨rfl, rfl, rfl⟩

/-- Counterexample to C2: a note whose `tags` field is a string is *not*
treated as if the field were absent — with the non-empty allow list
`only_tags = ["include"]` the stage returns `Continue`, while the
as-if-absent behaviour (the empty tag list) would veto. -/
theorem tag_filter_nonseq_counterexample :
    filter_by_tags [] ["include"] ctxC2 [] = PostprocessorResult.Continue ∧
    filter_by_tags_ [] [] ["include"] = PostprocessorResult.StopAndSkipNote :=
  ⟨rfl, rfl⟩

/-- C2 as amended: when the frontmatter `tags` field is present but not a
sequence, the Tag Filter returns `Continue` unconditionally, regardless of
`skip_tags` and `only_tags`. -/
theorem tag_filter_nonseq_continue (skip_tags only_tags : List String) (ctx : Context)
    (events : List MdEvent) (v : Value)
    (hget : frontGet ctx.frontmatter "tags" = some v) (hv : ∀ l, v ≠ Value.seq l) :
    filter_by_tags skip_tags only_tags ctx events = PostprocessorResult.Continue := by
  unfold filter_by_tags
  rw [hget]
  cases v
  case seq l => exact absurd rfl (hv l)
  all_goals rfl

/-- Witness for the amended C2 at a concrete note with a string-valued
`tags` field. -/
theorem tag_filter_nonseq_continue_witness :
    filter_by_tags ["a"] ["b"] ctxC2 [] = PostprocessorResult.Continue :=
  tag_filter_nonseq_continue ["a"] ["b"] ctxC2 [] (Value.str "foo") rfl
    (fun _ h => Value.noConfusion h)

/-- `tagsMatch` agrees with the spec's "some tag of the note appears in the
list". -/
theorem tagsMatch_iff (tags : List Value) (l : List String) :
    tagsMatch tags l = true ↔ ∃ v ∈ tags, ∃ s ∈ l, v = Value.str s := by
  simp only [tagsMatch, List.any_eq_true, valueEqStr_eq_true_iff]
  exact ⟨fun ⟨s, hs, v, hv, he⟩ => ⟨v, hv, s, hs, he⟩,
         fun ⟨v, hv, s, hs, he⟩ => ⟨s, hs, v, hv, he⟩⟩

/-- The verdict kernel decides exactly the veto condition of the spec. -/
theorem filter_core_iff (tags : List Value) (st ot : List String) :
    (filter_by_tags_ tags st ot = PostprocessorResult.StopAndSkipNote ↔
      tagFilterVeto tags st ot) ∧
    (filter_by_tags_ tags st ot = PostprocessorResult.Continue ↔
      ¬ tagFilterVeto tags st ot) := by
  have hbool : tagFilterVeto tags st ot ↔
      (tagsMatch tags st || !(ot.isEmpty || tagsMatch tags ot)) = true := by
    unfold tagFilterVeto
    rw [← tagsMatch_iff tags st, ← tagsMatch_iff tags ot]
    cases hst : tagsMatch tags st <;> cases hot : tagsMatch tags ot <;>
      cases hie : ot.isEmpty <;>
      simp_all [List.isEmpty_eq_false, List.isEmpty_eq_true]
  by_cases hb : (tagsMatch tags st || !(ot.isEmpty || tagsMatch tags ot)) = true
  · have hr : filter_by_tags_ tags st ot = PostprocessorResult.StopAndSkipNote := by
      unfold filter_by_tags_
      rw [if_pos hb]
    have hv : tagFilterVeto tags st ot := hbool.mpr hb
    rw [hr]
    exact ⟨⟨fun _ => hv, fun _ => rfl⟩,
           ⟨fun h => PostprocessorResult.noConfusion h, fun hn => absurd hv hn⟩⟩
  · have hr : filter_by_tags_ tags st ot = PostprocessorResult.Continue := by
      unfold filter_by_tags_
      rw [if_neg hb]
    have hv : ¬ tagFilterVeto tags st ot := fun h => hb (hbool.mp h)
    rw [hr]
    exact ⟨⟨fun h => PostprocessorResult.noConfusion h, fun hvv => absurd hvv hv⟩,
           ⟨fun _ => hv, fun _ => rfl⟩⟩

/-- C1: for a note whose `tags` field is a sequence (absence counting as the
empty sequence), the Tag Filter vetoes exactly when some note tag is in
`skip_tags`, or `only_tags` is non-empty and no note tag is in it; otherwise
it continues.  The deny list thus always wins. -/
theorem tag_filter_verdict (tags : List Value) (skip_tags only_tags : List String)
    (ctx : Context) (events : List MdEvent)
    (h : frontGet ctx.frontmatter "tags" = some (Value.seq tags) ∨
         (frontGet ctx.frontmatter "tags" = none ∧ tags = [])) :
    (filter_by_tags skip_tags only_tags ctx events = PostprocessorResult.StopAndSkipNote ↔
      tagFilterVeto tags skip_tags only_tags) ∧
    (filter_by_tags skip_tags only_tags ctx events = PostprocessorResult.Continue ↔
      ¬ tagFilterVeto tags skip_tags only_tags) := by
  rcases h with hseq | ⟨hnone, rfl⟩
  · unfold filter_by_tags
    rw [hseq]
    exact filter_core_iff tags skip_tags only_tags
  · unfold filter_by_tags
    rw [hnone]
    exact filter_core_iff [] skip_tags only_tags

/-- Witness for C1: a note tagged `[skip, publish]` with deny list `[skip]`
and allow list `[publish]` is vetoed — the deny list wins although the allow
list also matches. -/
theorem tag_filter_verdict_witness :
    filter_by_tags ["skip"] ["publish"] ctxC1w [] = PostprocessorResult.StopAndSkipNote :=
  (tag_filter_verdict [Value.str "skip", Value.str "publish"] ["skip"] ["publish"] ctxC1w []
      (Or.inl rfl)).1.mpr
    (Or.inl ⟨Value.str "skip", by simp, "skip", by simp, rfl⟩)

/-- Counterexample to C8: a `tags` sequence holding the non-string element
`1` is not written back as itself — the stage writes `[""]`, not `[1]`. -/
theorem remove_tags_counterexample :
    frontGet ((remove_specified_tags [] ctxC8 []).1.frontmatter) "tags" =
      some (Value.seq [Value.str ""]) := rfl

/-- C8 as amended: `remove_specified_tags` always writes a `tags` sequence
of strings none of which is in the removal list and returns `Continue`;
when the original field is a sequence *of strings* the written sequence is
the original filtered by the removal list, order preserved; when the field
is absent or not a sequence the written sequence is empty. -/
theorem remove_tags_spec (to_remove : List String) (ctx : Context) (events : List MdEvent) :
    (remove_specified_tags to_remove ctx events).2.2 = PostprocessorResult.Continue ∧
    (∃ ws : List String,
      frontGet ((remove_specified_tags to_remove ctx events).1.frontmatter) "tags" =
        some (Value.seq (ws.map Value.str)) ∧ ∀ s ∈ ws, s ∉ to_remove) ∧
    (∀ ts : List String,
      frontGet ctx.frontmatter "tags" = some (Value.seq (ts.map Value.str)) →
      frontGet ((remove_specified_tags to_remove ctx events).1.frontmatter) "tags" =
        some (Value.seq ((ts.filter (fun s => decide (s ∉ to_remove))).map Value.str))) ∧
    ((∀ l : List Value, frontGet ctx.frontmatter "tags" ≠ some (Value.seq l)) →
      frontGet ((remove_specified_tags to_remove ctx events).1.frontmatter) "tags" =
        some (Value.seq [])) := by
  refine ⟨rfl, ?_, ?_, ?_⟩
  · refine ⟨removeTagsOfField to_remove (frontGet ctx.frontmatter "tags"),
      frontGet_frontInsert _ _ _, ?_⟩
    intro s hs
    unfold removeTagsOfField at hs
    split at hs
    · exact mem_removeTags_not_mem _ _ _ hs
    · simp at hs
  · intro ts hts
    have hfield : removeTagsOfField to_remove (frontGet ctx.frontmatter "tags") =
        ts.filter (fun s => decide (s ∉ to_remove)) := by
      rw [hts]
      exact removeTags_map_str to_remove ts
    rw [remove_tags_written, hfield]
  · intro hns
    have hfield : removeTagsOfField to_remove (frontGet ctx.frontmatter "tags") = [] := by
      unfold removeTagsOfField
      split
      · next _ tags heq => exact absurd heq (hns tags)
      · rfl
    rw [remove_tags_written, hfield]
    rfl

/-- Witness for the amended C8: removing `a` from the string sequence
`[a, b]` writes back `[b]`. -/
theorem remove_tags_spec_witness :
    frontGet ((remove_specified_tags ["a"] ctxC8w []).1.frontmatter) "tags" =
      some (Value.seq [Value.str "b"]) := by
  have h := (remove_tags_spec ["a"] ctxC8w []).2.2.1 ["a", "b"] rfl
  rw [h]
  rfl

/-- C10: a non-string element of the `tags` sequence is coerced to the empty
string by the removal loop — the written-back sequence holds `""` in its
place, unless `""` is itself in the removal list, in which case the element
is dropped. -/
theorem remove_tags_nonstring (to_remove : List String) (pre suf : List Value) (v : Value)
    (ctx : Context) (events : List MdEvent)
    (hv : Value.as_str v = none)
    (hget : frontGet ctx.frontmatter "tags" = some (Value.seq (pre ++ v :: suf))) :
    frontGet ((remove_specified_tags to_remove ctx events).1.frontmatter) "tags" =
      some (Value.seq ((removeTags to_remove pre ++
        (if "" ∈ to_remove then [] else [""]) ++
        removeTags to_remove suf).map Value.str)) := by
  have hfield : removeTagsOfField to_remove (frontGet ctx.frontmatter "tags") =
      removeTags to_remove pre ++ (if "" ∈ to_remove then [] else [""]) ++
        removeTags to_remove suf := by
    rw [hget]
    show removeTags to_remove (pre ++ v :: suf) = _
    unfold removeTags
    rw [List.filterMap_append, List.filterMap_cons]
    by_cases h0 : "" ∈ to_remove <;> simp [hv, h0]
  rw [remove_tags_written, hfield]

/-- Witness for C10: with an empty removal list, the sequence `[1, "a"]` is
written back as `["", "a"]`. -/
theorem remove_tags_nonstring_witness :
    frontGet ((remove_specified_tags [] ctxC10w []).1.frontmatter) "tags" =
      some (Value.seq [Value.str "", Value.str "a"]) := by
  have h := remove_tags_nonstring [] [] [Value.str "a"] (Value.num 1) ctxC10w [] rfl rfl
  rw [h]
  rfl

/-- Counterexample to C6: on a context whose `current_file` has no file
stem, `destination_from_frontmatter` panics (returns `none` in the model)
instead of returning `Continue` — even though `export_to` is absent. -/
theorem destination_frame_counterexample :
    destination_from_frontmatter ctxC6 [] = none := rfl

/-- C6 as amended: whenever `destination_from_frontmatter` returns, the
event stream is unchanged and the outcome is `Continue`; and when
`current_file` has a file stem and `export_to` is absent or non-string, the
stage returns with the context unchanged (a complete no-op). -/
theorem destination_frame (ctx : Context) (events : List MdEvent) :
    (∀ out : DestOut, destination_from_frontmatter ctx events = some out →
      out.2.1 = events ∧ out.2.2.1 = PostprocessorResult.Continue) ∧
    ((fileStem ctx.current_file).isSome →
      (∀ s : String, frontGet ctx.frontmatter "export_to" ≠ some (Value.str s)) →
      destination_from_frontmatter ctx events =
        some (ctx, events, PostprocessorResult.Continue, [])) := by
  constructor
  · intro out h
    unfold destination_from_frontmatter at h
    split at h
    · simp at h
    · split at h
      · split at h
        · simp at h
        · split at h
          · simp at h
          · injection h with h
            subst h
            exact ⟨rfl, rfl⟩
      · injection h with h
        subst h
        exact ⟨rfl, rfl⟩
  · intro h1 h2
    obtain ⟨stem, hstem⟩ := Option.isSome_iff_exists.mp h1
    unfold destination_from_frontmatter
    rw [hstem]
    cases hexp : frontGet ctx.frontmatter "export_to" with
    | none => rfl
    | some v =>
      cases v with
      | str s => exact absurd hexp (h2 s)
      | null => rfl
      | bool b => rfl
      | num n => rfl
      | seq l => rfl
      | mapping l => rfl

/-- Witness for the amended C6: a context with a proper file name and no
`export_to` passes through untouched. -/
theorem destination_frame_witness :
    destination_from_frontmatter ctxC6w [] =
      some (ctxC6w, [], PostprocessorResult.Continue, []) :=
  (destination_frame ctxC6w []).2 rfl (fun _ h => Option.noConfusion h)

/-- Counterexample to C9: `destination_from_frontmatter` is *not*
well-defined when `current_file` has no file stem — the
`file_stem().expect("It is a file")` of line 34 is evaluated eagerly (Rust's
`unwrap_or` evaluates its argument unconditionally), so the stage panics
here even though the frontmatter supplies a `title` and no `export_to`. -/
theorem stage_panic_counterexample :
    destination_from_frontmatter ctxC9 [] = none := rfl

/-- C9 as amended: `softbreaks_to_hardbreaks`, `filter_by_tags` and
`remove_specified_tags` always run to completion and return an outcome; so
does `destination_from_frontmatter` provided `current_file` has a file
stem and, when `export_to` is a string, the shared-root walk terminates and
the computed destination has a parent for every relative image processed. -/
theorem stages_total (ctx : Context) (events : List MdEvent)
    (skip_tags only_tags to_remove : List String)
    (h1 : (fileStem ctx.current_file).isSome)
    (h2 : ∀ stem ep, fileStem ctx.current_file = some stem →
      frontGet ctx.frontmatter "export_to" = some (Value.str ep) →
      ∃ pr : List String × List String,
        sharedRootWalk ctx.current_file ctx.destination = some pr ∧
        (collectCopies ctx.current_file (pathJoin pr.2 (exportTarget ctx stem ep))
          events).isSome) :
    (∃ out : DestOut, destination_from_frontmatter ctx events = some out) ∧
    (softbreaks_to_hardbreaks ctx events).2.2 = PostprocessorResult.Continue ∧
    (filter_by_tags skip_tags only_tags ctx events = PostprocessorResult.Continue ∨
      filter_by_tags skip_tags only_tags ctx events = PostprocessorResult.StopAndSkipNote) ∧
    (remove_specified_tags to_remove ctx events).2.2 = PostprocessorResult.Continue := by
  refine ⟨?_, rfl, ?_, rfl⟩
  · obtain ⟨stem, hstem⟩ := Option.isSome_iff_exists.mp h1
    unfold destination_from_frontmatter
    rw [hstem]
    cases hexp : frontGet ctx.frontmatter "export_to" with
    | none => exact ⟨_, rfl⟩
    | some v =>
      cases v with
      | str ep =>
        obtain ⟨pr, hpr, hcc⟩ := h2 stem ep hstem hexp
        obtain ⟨f, t⟩ := pr
        obtain ⟨copies, hcopies⟩ := Option.isSome_iff_exists.mp hcc
        have hcopies2 : collectCopies ctx.current_file
            (pathJoin t (exportTarget ctx stem ep)) events = some copies := hcopies
        rw [hpr]
        simp only [hcopies2]
        exact ⟨_, rfl⟩
      | null => exact ⟨_, rfl⟩
      | bool b => exact ⟨_, rfl⟩
      | num n => exact ⟨_, rfl⟩
      | seq l => exact ⟨_, rfl⟩
      | mapping l => exact ⟨_, rfl⟩
  · cases hr : filter_by_tags skip_tags only_tags ctx events with
    | Continue => exact Or.inl rfl
    | StopAndSkipNote => exact Or.inr rfl

/-- Witness for the amended C9 on a well-formed context without
`export_to`. -/
theorem stages_total_witness :
    (destination_from_frontmatter ctxC9w []).isSome = true ∧
    (remove_specified_tags [] ctxC9w []).2.2 = PostprocessorResult.Continue := by
  have h := stages_total ctxC9w [] [] [] [] rfl
    (fun _ _ _ hexp => absurd hexp (fun hx => Option.noConfusion hx))
  exact ⟨Option.isSome_iff_exists.mpr h.1, h.2.2.2⟩

/-- A path ending in a normal (non-`..`) component has that component as
its file name. -/
theorem fileName_append_single (l : List String) (a : String) (ha : a ≠ "..") :
    fileName (l ++ [a]) = some a := by
  unfold fileName
  rw [List.getLast?_concat]
  simp [ha]

/-- Without `..` components, a path with no file name is the root. -/
theorem eq_nil_of_fileName_none (l : List String) (hnd : ".." ∉ l)
    (h : fileName l = none) : l = [] := by
  rcases List.eq_nil_or_concat l with rfl | ⟨l', a, rfl⟩
  · rfl
  · rw [List.concat_eq_append] at hnd h
    have ha : a ≠ ".." := by
      intro he
      subst he
      exact hnd (by simp)
    rw [fileName_append_single l' a ha] at h
    exact Option.noConfusion h

/-- From the state where both paths have been stripped to their roots the
walk never finishes: the loop condition `None == None` holds and
`parent().unwrap_or` makes no progress. -/
theorem walkFuel_nil_nil (n : Nat) : walkFuel n ([] : List String) [] = none := by
  induction n with
  | zero => rfl
  | succ m ih =>
    show (if fileName ([] : List String) = fileName [] then
        walkFuel m (parentOr []) (parentOr []) else some ([], [])) = none
    rw [if_pos rfl]
    exact ih

/-- Fuel bound for the terminating runs: on `..`-free distinct paths the
walk finishes within `|f| + |t| + 1` steps. -/
theorem walkFuel_term_aux (n : Nat) : ∀ f t : List String, f.length + t.length ≤ n →
    ".." ∉ f → ".." ∉ t → f ≠ t → (walkFuel (n + 1) f t).isSome = true := by
  induction n with
  | zero =>
    intro f t hlen h1 h2 hne
    have hf : f = [] := List.length_eq_zero.mp (by omega)
    have ht : t = [] := List.length_eq_zero.mp (by omega)
    exact absurd (hf.trans ht.symm) hne
  | succ m ih =>
    intro f t hlen h1 h2 hne
    by_cases hc : fileName f = fileName t
    · rcases List.eq_nil_or_concat f with rfl | ⟨f', a, rfl⟩
      · have hnone : fileName t = none := by rw [← hc]; rfl
        exact absurd (eq_nil_of_fileName_none t h2 hnone).symm hne
      · rw [List.concat_eq_append] at *
        have ha : a ≠ ".." := by
          intro he
          subst he
          exact h1 (by simp)
        rcases List.eq_nil_or_concat t with rfl | ⟨t', b, rfl⟩
        · rw [fileName_append_single f' a ha] at hc
          exact Option.noConfusion hc
        · rw [List.concat_eq_append] at *
          have hb : b ≠ ".." := by
            intro he
            subst he
            exact h2 (by simp)
          rw [fileName_append_single f' a ha, fileName_append_single t' b hb] at hc
          obtain rfl : a = b := Option.some.inj hc
          have hcond : fileName (f' ++ [a]) = fileName (t' ++ [a]) := by
            rw [fileName_append_single f' a ha, fileName_append_single t' a ha]
          have hstep : walkFuel (m + 1 + 1) (f' ++ [a]) (t' ++ [a]) = walkFuel (m + 1) f' t' := by
            show (if fileName (f' ++ [a]) = fileName (t' ++ [a]) then
                walkFuel (m + 1) (parentOr (f' ++ [a])) (parentOr (t' ++ [a]))
              else some (f' ++ [a], t' ++ [a])) = _
            rw [if_pos hcond]
            unfold parentOr
            rw [List.dropLast_concat, List.dropLast_concat]
          rw [hstep]
          apply ih
          · simp only [List.length_append, List.length_cons, List.length_nil] at hlen ⊢
            omega
          · exact fun hm => h1 (List.mem_append_left _ hm)
          · exact fun hm => h2 (List.mem_append_left _ hm)
          · intro he
            apply hne
            rw [he]
    · show (if fileName f = fileName t then walkFuel (m + 1) (parentOr f) (parentOr t)
        else some (f, t)).isSome = true
      rw [if_neg hc]
      rfl

/-- Counterexample to C7: the shared-root walk does *not* terminate for
every pair of paths — when `current_file` and the default destination are
the same path (here both `note.md`), both are stripped to the root together,
`file_name()` is `None` on both sides forever, and the `while` loop never
exits. -/
theorem walk_diverges_on_equal_paths : loopsForever ["note.md"] ["note.md"] := by
  intro n
  cases n with
  | zero => rfl
  | succ m =>
    show (if fileName ["note.md"] = fileName ["note.md"] then
        walkFuel m (parentOr ["note.md"]) (parentOr ["note.md"])
      else some (["note.md"], ["note.md"])) = none
    rw [if_pos rfl]
    exact walkFuel_nil_nil m

/-- C7 as amended: the shared-root walk terminates for every pair of
*distinct* paths built from normal components (no `..`); and whenever the
final components differ the walk stops immediately, anchoring the template
at the two paths as given.  (On equal paths it loops forever, see the
counterexample.) -/
theorem walk_terminates_of_ne (f t : List String) :
    (".." ∉ f → ".." ∉ t → f ≠ t → (sharedRootWalk f t).isSome = true) ∧
    (fileName f ≠ fileName t → sharedRootWalk f t = some (f, t)) := by
  constructor
  · intro h1 h2 hne
    exact walkFuel_term_aux (f.length + t.length) f t le_rfl h1 h2 hne
  · intro hc
    show (if fileName f = fileName t then
        walkFuel (f.length + t.length) (parentOr f) (parentOr t) else some (f, t)) = some (f, t)
    rw [if_neg hc]

/-- Witness for the amended C7 on the pair `a/x`, `b/x`: one shared trailing
segment is stripped and the walk stops. -/
theorem walk_terminates_of_ne_witness :
    (sharedRootWalk ["a", "x"] ["b", "x"]).isSome = true :=
  (walk_terminates_of_ne ["a", "x"] ["b", "x"]).1 (by decide) (by decide) (by decide)

end Obsidian
